import Mathlib

/-!
Verification of the WALMA structured-content playback core against its
JavaScript source.  The tokenizer (`parseMathSegments` in MathText.jsx),
the question/review playback state machines (QuestionLevelPage.jsx and
ReviewLevelPage.jsx), the completion-report effect, and the part
classification in `renderParts` are embedded as executable Lean
functions over `List Char` / explicit state records, and the spec's
testable properties are proved or refuted about them.
-/

namespace Walma

/-- JS regex `.`: any character except a line terminator. -/
def dotChar (c : Char) : Bool := c ≠ '\n' && c ≠ '\r'

/-- The discriminator of a segment produced by `parseMathSegments`
(`type` field in the JS object: "text" | "inline" | "block"). -/
inductive SegType
  | text
  | inline
  | block
deriving DecidableEq

/-- One element of the array `parseMathSegments` returns:
`{ type, content }`. -/
structure Seg where
  type : SegType
  content : List Char
deriving DecidableEq

/-- Recognize the two-character closing delimiter `\c` (c = ')' or ']')
at the head of the list; returns the remainder after it. -/
def closeMark (close : Char) (l : List Char) : Option (List Char) :=
  match l with
  | '\\' :: d :: r => if d = close then some r else none
  | _ => none

/-- Non-greedy `(.+?)\\c`: consume at least one `.`-matching character,
stopping at the first position where the closing delimiter `\c` follows.
Returns (captured content, remainder after the closing delimiter). -/
def scanClose (close : Char) : List Char → Option (List Char × List Char)
  | [] => none
  | c :: rest =>
    if dotChar c then
      match closeMark close rest with
      | some r => some ([c], r)
      | none =>
        match scanClose close rest with
        | some (content, r) => some (c :: content, r)
        | none => none
    else none

/-- Try both regex alternatives `\\\((.+?)\\\)` and `\\\[(.+?)\\\]` at the
current position only. -/
def tryMatchAt (l : List Char) : Option (Seg × List Char) :=
  match l with
  | '\\' :: '(' :: rest2 =>
    (scanClose ')' rest2).map (fun p => (⟨SegType.inline, p.1⟩, p.2))
  | '\\' :: '[' :: rest2 =>
    (scanClose ']' rest2).map (fun p => (⟨SegType.block, p.1⟩, p.2))
  | _ => none

/-- `pattern.exec`: left-to-right scan for the first position where one of
the two alternatives matches.  Returns (text before the match, matched
segment, remainder after the match). -/
def findMatch : List Char → Option (List Char × Seg × List Char)
  | [] => none
  | c :: rest =>
    match tryMatchAt (c :: rest) with
    | some (sg, r) => some ([], sg, r)
    | none =>
      match findMatch rest with
      | some (p, sg, r) => some (c :: p, sg, r)
      | none => none

/-- The `while ((match = pattern.exec(text)) !== null)` loop of
`parseMathSegments`, with explicit fuel (one unit per match consumed;
`l.length` always suffices).  Text strictly between matches is pushed as a
`text` part only when non-empty, and the remainder after the last match is
pushed as a `text` part only when non-empty. -/
def parseGo : Nat → List Char → List Seg
  | 0, l => if l.isEmpty then [] else [⟨SegType.text, l⟩]
  | fuel + 1, l =>
    match findMatch l with
    | none => if l.isEmpty then [] else [⟨SegType.text, l⟩]
    | some (p, sg, r) =>
      (if p.isEmpty then [] else [⟨SegType.text, p⟩]) ++ sg :: parseGo fuel r

/-- `parseMathSegments` from MathText.jsx: splits a string into plain text
and math (`\(...\)` inline or `\[...\]` block) segments. -/
def parseMathSegments (l : List Char) : List Seg := parseGo l.length l

/-- Re-serialize a segment list: text verbatim, inline wrapped back in
`\(...\)`, block wrapped back in `\[...\]`. -/
def reserialize : List Seg → List Char
  | [] => []
  | ⟨SegType.text, cs⟩ :: rest => cs ++ reserialize rest
  | ⟨SegType.inline, cs⟩ :: rest => '\\' :: '(' :: (cs ++ '\\' :: ')' :: reserialize rest)
  | ⟨SegType.block, cs⟩ :: rest => '\\' :: '[' :: (cs ++ '\\' :: ']' :: reserialize rest)

/-- The characters of the escaped-parenthesis math delimiters. -/
def mathDelimChars : List Char := ['\\', '(', ')', '[', ']']

/-! ## The doubled-brace tokenizer strategy (`renderInlineMathText`) -/

/-- Recognize the closing `}}` at the head of the list. -/
def closeBraces (l : List Char) : Option (List Char) :=
  match l with
  | '}' :: '}' :: r => some r
  | _ => none

/-- Non-greedy `(.*?)\}\}`: the capture may be empty, and the first
position where `}}` follows ends it (tried before consuming a character,
then after each consumed `.`-matching character). -/
def scanCloseBraces : List Char → Option (List Char × List Char)
  | [] => none
  | c :: rest =>
    match closeBraces (c :: rest) with
    | some r => some ([], r)
    | none =>
      if dotChar c then
        match scanCloseBraces rest with
        | some (content, r) => some (c :: content, r)
        | none => none
      else none

/-- Try the regex `\{\{(.*?)\}\}` at the current position only. -/
def tryBracesAt (l : List Char) : Option (List Char × List Char) :=
  match l with
  | '{' :: '{' :: rest2 => scanCloseBraces rest2
  | _ => none

/-- Left-to-right scan for the first `{{...}}` match: (text before the
match, captured content, remainder after the match). -/
def findBracesMatch : List Char → Option (List Char × List Char × List Char)
  | [] => none
  | c :: rest =>
    match tryBracesAt (c :: rest) with
    | some (content, r) => some ([], content, r)
    | none =>
      match findBracesMatch rest with
      | some (p, content, r) => some (c :: p, content, r)
      | none => none

/-- JS `line.split(/\{\{(.*?)\}\}/g)`: pieces of plain text interleaved
with the captured groups (even positions text, odd positions captures);
empty pieces are kept.  Fuel-driven; `l.length` always suffices. -/
def splitBracesGo : Nat → List Char → List (List Char)
  | 0, l => [l]
  | fuel + 1, l =>
    match findBracesMatch l with
    | none => [l]
    | some (p, content, r) => p :: content :: splitBracesGo fuel r

/-- The full JS split of one line on `{{...}}` markers. -/
def splitBraces (l : List Char) : List (List Char) := splitBracesGo l.length l

/-- Only the captured `{{...}}` contents of one line, in order. -/
def capturesGo : Nat → List Char → List (List Char)
  | 0, _ => []
  | fuel + 1, l =>
    match findBracesMatch l with
    | none => []
    | some (_, content, r) => content :: capturesGo fuel r

/-- The delimited contents of the `{{...}}` markers of one line. -/
def braceCaptures (l : List Char) : List (List Char) := capturesGo l.length l

/-- JS `String.prototype.trim`: strip whitespace from both ends. -/
def jsTrim (l : List Char) : List Char :=
  ((l.dropWhile Char.isWhitespace).reverse.dropWhile Char.isWhitespace).reverse

/-- One node emitted by `renderInlineMathText` for one line: plain text,
or an `<InlineMath math={seg.trim()} />` element. -/
inductive RItem
  | textItem (t : List Char)
  | mathItem (latex : List Char)
deriving DecidableEq

/-- Alternate over the split pieces: even positions (`i % 2 === 0`) stay
text, odd positions become `InlineMath` with the capture trimmed. -/
def renderAlt : Bool → List (List Char) → List RItem
  | _, [] => []
  | false, s :: rest => RItem.textItem s :: renderAlt true rest
  | true, s :: rest => RItem.mathItem (jsTrim s) :: renderAlt false rest

/-- `renderInlineMathText` of QuestionLevelPage.jsx, for one line (the
function first splits its input on newlines, then per line splits on
`{{...}}` and hands each odd piece, trimmed, to `InlineMath`). -/
def renderLine (l : List Char) : List RItem := renderAlt false (splitBraces l)

/-- JS `text.split("\n")`: line splitting, keeping empty lines. -/
def splitOnNl : List Char → List (List Char)
  | [] => [[]]
  | '\n' :: rest => [] :: splitOnNl rest
  | c :: rest =>
    match splitOnNl rest with
    | [] => [[c]]
    | line :: lines => (c :: line) :: lines

/-- `renderInlineMathText`: per-line rendering of the whole string. -/
def renderInlineMathText (t : List Char) : List (List RItem) :=
  (splitOnNl t).map renderLine

/-- The LaTeX strings a rendered line hands to the `InlineMath`
typesetting collaborator, in order. -/
def mathStrings : List RItem → List (List Char)
  | [] => []
  | RItem.mathItem m :: rest => m :: mathStrings rest
  | RItem.textItem _ :: rest => mathStrings rest

/-! ## The MathText component (escaped-parenthesis strategy hand-off) -/

/-- One React node emitted by the `MathText` component. -/
inductive RenderedNode
  | inlineMathNode (latex : List Char)
  | blockMathNode (latex : List Char)
  | spanNode (t : List Char)
deriving DecidableEq

/-- The `segments.map` body of `MathText`: inline segments go to
`<InlineMath>{seg.content}</InlineMath>`, block segments to `BlockMath`,
text segments to a `<span>`. -/
def mathTextRender : List Seg → List RenderedNode
  | [] => []
  | ⟨SegType.inline, cs⟩ :: rest => RenderedNode.inlineMathNode cs :: mathTextRender rest
  | ⟨SegType.block, cs⟩ :: rest => RenderedNode.blockMathNode cs :: mathTextRender rest
  | ⟨SegType.text, cs⟩ :: rest => RenderedNode.spanNode cs :: mathTextRender rest

/-- The LaTeX strings `MathText` hands to the typesetting collaborator. -/
def nodeMathPayloads : List RenderedNode → List (List Char)
  | [] => []
  | RenderedNode.inlineMathNode m :: rest => m :: nodeMathPayloads rest
  | RenderedNode.blockMathNode m :: rest => m :: nodeMathPayloads rest
  | RenderedNode.spanNode _ :: rest => nodeMathPayloads rest

/-- The contents of the math segments of a tokenized list, in order. -/
def segMathContents : List Seg → List (List Char)
  | [] => []
  | ⟨SegType.text, _⟩ :: rest => segMathContents rest
  | ⟨SegType.inline, cs⟩ :: rest => cs :: segMathContents rest
  | ⟨SegType.block, cs⟩ :: rest => cs :: segMathContents rest

/-! ## Part classification (`renderParts` of QuestionLevelPage.jsx) -/

/-- Does the first list occur at the head of the second? -/
def listStartsWith : List Char → List Char → Bool
  | [], _ => true
  | _ :: _, [] => false
  | p :: ps, c :: cs => p == c && listStartsWith ps cs

/-- Does the pattern occur as a contiguous substring of the list? -/
def containsPat (pat : List Char) : List Char → Bool
  | [] => listStartsWith pat []
  | c :: rest => listStartsWith pat (c :: rest) || containsPat pat rest

/-- Does the list end with the pattern? -/
def endsWithPat (pat l : List Char) : Bool := listStartsWith pat.reverse l.reverse

/-- JS strict equality `===` between a string and a boolean: operands of
different types are never strictly equal, so the comparison is constantly
false.  (First branch of `renderParts`: `part.trim() ===
part.trim().replace(...).length > 2`, where `>` binds tighter than `===`,
so the right operand is a boolean.) -/
def jsStrictEqStrBool (_str : List Char) (_bool : Bool) : Bool := false

/-- JS `part.trim().replace(/[a-zA-Z0-9 .,!?]/g, "")`: delete every ASCII
letter, digit, space, and the punctuation `.,!?`. -/
def replaceStripped (l : List Char) : List Char :=
  l.filter (fun c => !(c.isAlphanum || c == ' ' || c == '.' || c == ',' || c == '!' || c == '?'))

/-- JS `/\.(png|jpg|jpeg)/i.test(part)`: the part contains `.png`, `.jpg`
or `.jpeg` anywhere, case-insensitively. -/
def extTest (part : List Char) : Bool :=
  let low := part.map Char.toLower
  containsPat ('.' :: ['p', 'n', 'g']) low ||
    containsPat ('.' :: ['j', 'p', 'g']) low ||
    containsPat ('.' :: ['j', 'p', 'e', 'g']) low

/-- The spec's §4.1 image test (stated for comparison with the code): the
part's trimmed value ends in `.png`, `.jpg` or `.jpeg`,
case-insensitively. -/
def specImageTest (part : List Char) : Bool :=
  let low := (jsTrim part).map Char.toLower
  endsWithPat ('.' :: ['p', 'n', 'g']) low ||
    endsWithPat ('.' :: ['j', 'p', 'g']) low ||
    endsWithPat ('.' :: ['j', 'p', 'e', 'g']) low

/-- What `renderParts` renders one content part as. -/
inductive RenderedPart
  | blockMathPart (latex : List Char)
  | imagePart (src : List Char)
  | textPart (t : List Char)
deriving DecidableEq

/-- The branch chain of `renderParts` for one part: the (always-false)
strict-equality test, then the extension regex test rendering an `<img
src={/${part.trim()}}>`, then the plain-text fallback. -/
def classifyPart (part : List Char) : RenderedPart :=
  if jsStrictEqStrBool (jsTrim part) (decide (2 < (replaceStripped (jsTrim part)).length)) then
    RenderedPart.blockMathPart (jsTrim part)
  else if extTest part then
    RenderedPart.imagePart ('/' :: jsTrim part)
  else
    RenderedPart.textPart part

/-- Is a rendered part an image? -/
def isImageClass : RenderedPart → Bool
  | RenderedPart.imagePart _ => true
  | _ => false

/-! ## The question-level playback state machine (QuestionLevelPage.jsx) -/

/-- One question of `levelData.questions`. -/
structure Question where
  questionParts : List (List Char)
  options : List String
  correctAnswer : String
  explanationParts : List (List Char)
deriving DecidableEq

/-- A question with no content, used where JS would read an
out-of-bounds array element. -/
def emptyQuestion : Question := ⟨[], [], "", []⟩

/-- The `showFeedback` object: `{ text, isCorrect }`. -/
structure Feedback where
  text : String
  isCorrect : Bool
deriving DecidableEq

/-- The React state of `QuestionLevelPage`. -/
structure PlayState where
  currentStepIndex : Nat
  selectedAnswer : Option String
  isAnswerChecked : Bool
  showFeedback : Option Feedback
  showExplanation : Bool
  isLevelComplete : Bool
deriving DecidableEq

/-- A freshly-entered unit at index `i`: no selection, unchecked, no
feedback, explanation hidden, level not complete. -/
def cleanState (i : Nat) : PlayState := ⟨i, none, false, none, false, false⟩

/-- The initial `useState` values of `QuestionLevelPage`. -/
def initState : PlayState := cleanState 0

/-- `handleCheckAnswer`: compare the selection with `correctAnswer` by
strict equality, record the feedback, and open the explanation exactly
when the answer is wrong (a correct answer leaves `showExplanation`
untouched). -/
def handleCheckAnswer (q : Question) (s : PlayState) : PlayState :=
  let isCorrect : Bool := s.selectedAnswer == some q.correctAnswer
  { s with
    isAnswerChecked := true
    showFeedback :=
      some ⟨if isCorrect then "Correct!" else "Incorrect. The answer is: " ++ q.correctAnswer,
        isCorrect⟩
    showExplanation := if isCorrect then s.showExplanation else true }

/-- `handleContinue`: advance to the next question, resetting the
per-unit interaction state, or mark the level complete after the last
question. -/
def handleContinue (numQuestions : Nat) (s : PlayState) : PlayState :=
  if s.currentStepIndex < numQuestions - 1 then
    { s with
      currentStepIndex := s.currentStepIndex + 1
      isAnswerChecked := false
      selectedAnswer := none
      showFeedback := none
      showExplanation := false }
  else
    { s with isLevelComplete := true }

/-- A user interaction the page's rendered controls allow: pressing an
option button, the main Check/Continue button, or the WHY? button. -/
inductive Action
  | selectOption (opt : String)
  | mainButton
  | whyButton
deriving DecidableEq

/-- JS truthiness of the `selectedAnswer` state: both `null` and the
empty string are falsy, so `onClick={selectedAnswer ? ... : undefined}`
leaves the main button dead for either. -/
def jsTruthy : Option String → Bool
  | none => false
  | some str => !(str == "")

/-- One event-handler dispatch, with the render-time guards of the JSX:
once `isLevelComplete` the question UI is unmounted, so no control fires;
option buttons exist only for the current question's options and are
`disabled` once checked; the main button's onClick is `undefined` unless
`selectedAnswer` is truthy, runs `handleCheckAnswer` on first press,
`handleContinue` after; the WHY? button is rendered only after a correct
checked answer and toggles the explanation. -/
def step (lvl : List Question) (s : PlayState) (a : Action) : PlayState :=
  if s.isLevelComplete then s
  else
    match a with
    | Action.selectOption opt =>
      if s.isAnswerChecked then s
      else if opt ∈ (lvl.getD s.currentStepIndex emptyQuestion).options then
        { s with selectedAnswer := some opt }
      else s
    | Action.mainButton =>
      if jsTruthy s.selectedAnswer then
        if s.isAnswerChecked then handleContinue lvl.length s
        else handleCheckAnswer (lvl.getD s.currentStepIndex emptyQuestion) s
      else s
    | Action.whyButton =>
      match s.showFeedback with
      | none => s
      | some fb =>
        if s.isAnswerChecked && fb.isCorrect then { s with showExplanation := !s.showExplanation }
        else s

/-- Run a sequence of interactions. -/
def runTrace (lvl : List Question) (s : PlayState) (acts : List Action) : PlayState :=
  acts.foldl (step lvl) s

/-- The canonical interaction with one question: select an option, press
Check, press Continue. -/
def unitTrace (opt : String) : List Action :=
  [Action.selectOption opt, Action.mainButton, Action.mainButton]

/-- A full session: the canonical interaction with each question in
order, choosing `opts` as the answers. -/
def sessionTrace : List String → List Action
  | [] => []
  | o :: rest => unitTrace o ++ sessionTrace rest

/-! ## The review-level playback state machine (ReviewLevelPage.jsx) -/

/-- The sequencing state of `ReviewLevelPage`. -/
structure ReviewState where
  currentStepIndex : Nat
  isLevelComplete : Bool
deriving DecidableEq

/-- `handleContinue` of ReviewLevelPage: advance to the next slide or
mark the level complete after the last one. -/
def reviewContinue (numSlides : Nat) (s : ReviewState) : ReviewState :=
  if s.currentStepIndex < numSlides - 1 then { s with currentStepIndex := s.currentStepIndex + 1 }
  else { s with isLevelComplete := true }

/-- The state after pressing Continue `k` times from the initial
review state. -/
def reviewIter (numSlides : Nat) : Nat → ReviewState
  | 0 => ⟨0, false⟩
  | k + 1 => reviewContinue numSlides (reviewIter numSlides k)

/-! ## The completion-report effect (markLevelComplete / markComplete) -/

/-- What the level page renders: the LEVEL COMPLETE screen or the
question card for the current step. -/
inductive Screen
  | levelComplete
  | questionCard (idx : Nat)
deriving DecidableEq

/-- The top-level render branch `isLevelComplete ? <level-complete> :
<question-card>`. -/
def renderScreen (s : PlayState) : Screen :=
  if s.isLevelComplete then Screen.levelComplete else Screen.questionCard s.currentStepIndex

/-- Run a sequence of interactions together with the
`useEffect(markLevelComplete, [isLevelComplete, levelId])` effect: the
effect's `updateDoc(..., arrayUnion(levelId))` write fires exactly when
`isLevelComplete` changes from false to true and a user is signed in; the
write's success (`writeOk`) is logged but swallowed by the `try/catch`,
so it never feeds back into the state.  Returns the final state and the
log of write attempts. -/
def runWithReports (lvl : List Question) (hasUser writeOk : Bool) :
    List Action → PlayState → PlayState × List Bool
  | [], s => (s, [])
  | a :: rest, s =>
    let s2 := step lvl s a
    let res := runWithReports lvl hasUser writeOk rest s2
    if !s.isLevelComplete && s2.isLevelComplete && hasUser then (res.1, writeOk :: res.2)
    else (res.1, res.2)

/-! ## Content-unit normalization (spec §4.2) -/

/-- The §7 error taxonomy entry raised by normalization. -/
inductive ErrorKind
  | MalformedUnit
deriving DecidableEq

/-- A raw question unit as authored: its content fields (already in the
documented field order for its variant), its options, and its claimed
correct answer. -/
structure RawQuestionUnit where
  parts : List (List Char)
  options : List String
  correctAnswer : String
deriving DecidableEq

/-- A normalized question unit: tokenized parts plus the answer
contract. -/
structure NormUnit where
  parts : List Seg
  options : List String
  correctAnswer : String
deriving DecidableEq

/-- Tokenize each raw content field and concatenate in field order. -/
def tokenizeAll : List (List Char) → List Seg
  | [] => []
  | p :: rest => parseMathSegments p ++ tokenizeAll rest

/-- Modelled from the spec: the repository has no `normalize`
implementation (§4.2 Content Unit Model exists only as a contract; the
page components consume level JSON unvalidated), so this follows the
spec's words: options are copied verbatim in order; `correctAnswer` must
case-sensitively match one of `options` or the unit fails fast with
`MalformedUnit`; a unit with zero parts after tokenization is also
`MalformedUnit`. -/
def normalizeQuestion (raw : RawQuestionUnit) : Except ErrorKind NormUnit :=
  if raw.correctAnswer ∈ raw.options then
    let parts := tokenizeAll raw.parts
    if parts.isEmpty then Except.error ErrorKind.MalformedUnit
    else Except.ok ⟨parts, raw.options, raw.correctAnswer⟩
  else Except.error ErrorKind.MalformedUnit

/-! ## Concrete demonstration data for witnesses -/

/-- A two-question level: question 0 has options 2/3 with correct answer
2, question 1 has options A/B with correct answer A. -/
def demoQuestions : List Question :=
  [⟨[String.toList "What is 1+1?"], ["2", "3"], "2", [String.toList "Because."]⟩,
   ⟨[String.toList "Pick A"], ["A", "B"], "A", [String.toList "A it is."]⟩]

/-- The spec §8 malformed unit: options A/B but correct answer C. -/
def demoBadUnit : RawQuestionUnit :=
  ⟨[String.toList "Pick one"], ["A", "B"], "C"⟩

/-! # Lemmas about the tokenizer -/

/-- A successful `closeMark` pins down the head of the list. -/
theorem closeMark_some {close : Char} {l r : List Char} (h : closeMark close l = some r) :
    l = '\\' :: close :: r := by
  unfold closeMark at h
  split at h
  · next d r2 =>
    split at h
    · next hd => cases h; rw [hd]
    · cases h
  · cases h

/-- A successful `scanClose` decomposes its input as the captured content
followed by the closing delimiter and the remainder. -/
theorem scanClose_some {close : Char} :
    ∀ {l content r : List Char}, scanClose close l = some (content, r) →
      l = content ++ '\\' :: close :: r := by
  intro l
  induction l with
  | nil => intro content r h; simp [scanClose] at h
  | cons c rest ih =>
    intro content r h
    rw [scanClose] at h
    split at h
    · cases hC : closeMark close rest with
      | some r2 =>
        rw [hC] at h
        cases h
        simpa using closeMark_some hC
      | none =>
        rw [hC] at h
        cases hS : scanClose close rest with
        | none => rw [hS] at h; cases h
        | some pr =>
          rw [hS] at h
          cases h
          simpa using ih hS
    · cases h

/-- A successful match at the current position pins down the input as the
full delimited region followed by the remainder. -/
theorem tryMatchAt_some {l r : List Char} {sg : Seg} (h : tryMatchAt l = some (sg, r)) :
    (∃ c, sg = ⟨SegType.inline, c⟩ ∧ l = '\\' :: '(' :: (c ++ '\\' :: ')' :: r)) ∨
      (∃ c, sg = ⟨SegType.block, c⟩ ∧ l = '\\' :: '[' :: (c ++ '\\' :: ']' :: r)) := by
  unfold tryMatchAt at h
  split at h
  · next rest2 =>
    cases hS : scanClose ')' rest2 with
    | none => rw [hS] at h; cases h
    | some pr =>
      rw [hS] at h
      cases h
      exact Or.inl ⟨pr.1, rfl, by rw [scanClose_some hS]⟩
  · next rest2 =>
    cases hS : scanClose ']' rest2 with
    | none => rw [hS] at h; cases h
    | some pr =>
      rw [hS] at h
      cases h
      exact Or.inr ⟨pr.1, rfl, by rw [scanClose_some hS]⟩
  · cases h

/-- A successful `findMatch` decomposes the input as the text before the
match, the delimited region, and the remainder. -/
theorem findMatch_some :
    ∀ {l p r : List Char} {sg : Seg}, findMatch l = some (p, sg, r) →
      (∃ c, sg = ⟨SegType.inline, c⟩ ∧ l = p ++ '\\' :: '(' :: (c ++ '\\' :: ')' :: r)) ∨
        (∃ c, sg = ⟨SegType.block, c⟩ ∧ l = p ++ '\\' :: '[' :: (c ++ '\\' :: ']' :: r)) := by
  intro l
  induction l with
  | nil => intro p r sg h; simp [findMatch] at h
  | cons ch rest ih =>
    intro p r sg h
    rw [findMatch] at h
    cases hT : tryMatchAt (ch :: rest) with
    | some m =>
      rw [hT] at h
      cases h
      rcases tryMatchAt_some hT with ⟨c, hsg, hl⟩ | ⟨c, hsg, hl⟩
      · exact Or.inl ⟨c, hsg, by simpa using hl⟩
      · exact Or.inr ⟨c, hsg, by simpa using hl⟩
    | none =>
      rw [hT] at h
      cases hR : findMatch rest with
      | none => rw [hR] at h; cases h
      | some m =>
        obtain ⟨p2, sg2, r2⟩ := m
        rw [hR] at h
        cases h
        rcases ih hR with ⟨c, hsg, hl⟩ | ⟨c, hsg, hl⟩
        · exact Or.inl ⟨c, hsg, by rw [List.cons_append, ← hl]⟩
        · exact Or.inr ⟨c, hsg, by rw [List.cons_append, ← hl]⟩

/-- The remainder after a successful `findMatch` is strictly shorter than
the input. -/
theorem findMatch_shrinks {l p r : List Char} {sg : Seg}
    (h : findMatch l = some (p, sg, r)) : r.length < l.length := by
  rcases findMatch_some h with ⟨c, _, hl⟩ | ⟨c, _, hl⟩ <;>
    · rw [hl]; simp [List.length_append]; omega

/-- `reserialize` distributes over appending. -/
theorem reserialize_append (a b : List Seg) :
    reserialize (a ++ b) = reserialize a ++ reserialize b := by
  induction a with
  | nil => rfl
  | cons sg rest ih =>
    obtain ⟨t, cs⟩ := sg
    cases t <;> simp [reserialize, ih]

/-- Re-serializing what `parseGo` produces reconstructs the input, for
any sufficient fuel. -/
theorem reserialize_parseGo :
    ∀ (fuel : Nat) (l : List Char), l.length ≤ fuel → reserialize (parseGo fuel l) = l := by
  intro fuel
  induction fuel with
  | zero =>
    intro l hl
    have : l = [] := List.eq_nil_of_length_eq_zero (Nat.le_zero.mp hl)
    subst this
    rfl
  | succ fuel ih =>
    intro l hl
    rw [parseGo]
    cases hF : findMatch l with
    | none =>
      cases l with
      | nil => rfl
      | cons c rest => simp [reserialize]
    | some m =>
      obtain ⟨p, sg, r⟩ := m
      have hr : r.length ≤ fuel := by
        have := findMatch_shrinks hF
        omega
      have hrec := ih r hr
      rcases findMatch_some hF with ⟨c, hsg, hldecomp⟩ | ⟨c, hsg, hldecomp⟩ <;> subst hsg <;>
        · rw [reserialize_append]

          by_cases hp : p.isEmpty
          · have : p = [] := by simpa [List.isEmpty_iff] using hp
            subst this
            simp [reserialize, hrec, hldecomp]
          · simp only [hp, if_neg, Bool.false_eq_true, not_false_iff, ite_false]
            simp [reserialize, hrec, hldecomp]

/-- When no delimited region matches anywhere, a non-empty input becomes
one literal text part. -/
theorem parse_of_findMatch_none {l : List Char} (h1 : findMatch l = none) (h2 : l ≠ []) :
    parseMathSegments l = [⟨SegType.text, l⟩] := by
  cases l with
  | nil => exact absurd rfl h2
  | cons c rest =>
    show parseGo (rest.length + 1) (c :: rest) = _
    rw [parseGo, h1]
    rfl

/-- A position whose head is not a backslash starts no match. -/
theorem tryMatchAt_of_head_ne {c : Char} {rest : List Char} (hc : c ≠ '\\') :
    tryMatchAt (c :: rest) = none := by
  unfold tryMatchAt
  split
  · next heq => cases heq; exact absurd rfl hc
  · next heq => cases heq; exact absurd rfl hc
  · rfl

/-- A string with no backslash contains no delimited math region. -/
theorem findMatch_of_no_backslash : ∀ {l : List Char}, '\\' ∉ l → findMatch l = none := by
  intro l
  induction l with
  | nil => intro _; rfl
  | cons c rest ih =>
    intro h
    have hc : c ≠ '\\' := fun hh => h (hh ▸ List.mem_cons_self c rest)
    have hrest : '\\' ∉ rest := fun hh => h (List.mem_cons_of_mem c hh)
    rw [findMatch, tryMatchAt_of_head_ne hc, ih hrest]

/-- Any sufficient fuel computes the same segmentation. -/
theorem parseGo_fuel :
    ∀ (fuel : Nat) (l : List Char), l.length ≤ fuel → parseGo fuel l = parseGo l.length l := by
  intro fuel
  induction fuel using Nat.strong_induction_on with
  | _ fuel ih =>
    intro l hl
    match fuel with
    | 0 =>
      have : l = [] := List.eq_nil_of_length_eq_zero (Nat.le_zero.mp hl)
      subst this
      rfl
    | f + 1 =>
      cases l with
      | nil => rfl
      | cons c rest =>
        rw [List.length_cons] at hl
        cases hF : findMatch (c :: rest) with
        | none => simp [parseGo, hF]
        | some m =>
          obtain ⟨p, sg, r⟩ := m
          have hshrink := findMatch_shrinks hF
          rw [List.length_cons] at hshrink
          have h1 : parseGo f r = parseGo r.length r :=
            ih f (Nat.lt_succ_self f) r (by omega)
          have h2 : parseGo rest.length r = parseGo r.length r :=
            ih rest.length (by omega) r (by omega)
          simp only [List.length_cons, parseGo, hF]
          rw [h1, h2]

/-- `parseMathSegments` satisfies its scanning recursion: the text
strictly before the first match becomes a text part (dropped when
empty), the matched region becomes its typed math part, and scanning
continues after the match. -/
theorem parse_scan_step {l p r : List Char} {sg : Seg} (h : findMatch l = some (p, sg, r)) :
    parseMathSegments l = (if p.isEmpty then [] else [⟨SegType.text, p⟩]) ++ sg :: parseMathSegments r := by
  cases l with
  | nil => simp [findMatch] at h
  | cons c rest =>
    have hshrink := findMatch_shrinks h
    rw [List.length_cons] at hshrink
    show parseGo (c :: rest).length (c :: rest) = _
    simp only [List.length_cons, parseGo, h]
    rw [parseGo_fuel rest.length r (by omega)]
    rfl

/-! # Claim theorems: the tokenizer -/

/-- C1: the tokenizer is a single left-to-right scan with non-greedy
matching: the first match splits the input into pre-text (a text part
when non-empty), the typed math part, and the rest, scanned in turn; in
particular `tokenize("a \(x^2\) b")` is exactly
`[{text,"a "}, {inline_math,"x^2"}, {text," b"}]`. -/
theorem tokenize_scan_and_example :
    parseMathSegments (String.toList "a \\(x^2\\) b") =
      [⟨SegType.text, String.toList "a "⟩, ⟨SegType.inline, String.toList "x^2"⟩,
        ⟨SegType.text, String.toList " b"⟩] ∧
      (∀ (l p r : List Char) (sg : Seg), findMatch l = some (p, sg, r) →
        parseMathSegments l =
          (if p.isEmpty then [] else [⟨SegType.text, p⟩]) ++ sg :: parseMathSegments r) :=
  ⟨by decide, fun _ _ _ _ h => parse_scan_step h⟩

/-- C4: an input whose tail contains only unmatched/dangling delimiters
(no complete delimited region) is emitted as one literal text part,
never dropped; `tokenize("\(unterminated")` is the whole string as one
text part. -/
theorem dangling_delimiter_literal_text (l : List Char)
    (h1 : findMatch l = none) (h2 : l ≠ []) :
    parseMathSegments l = [⟨SegType.text, l⟩] :=
  parse_of_findMatch_none h1 h2

/-- Witness for C4 at the spec's example `"\(unterminated"`. -/
theorem dangling_delimiter_literal_text_witness :
    findMatch (String.toList "\\(unterminated") = none ∧
      String.toList "\\(unterminated" ≠ [] ∧
      parseMathSegments (String.toList "\\(unterminated") =
        [⟨SegType.text, String.toList "\\(unterminated"⟩] :=
  ⟨by decide, by decide, dangling_delimiter_literal_text _ (by decide) (by decide)⟩

/-- C8 counterexample: on the empty string the tokenizer returns the
empty list, not the claimed one-element list `[{text,""}]`. -/
theorem tokenize_empty_is_empty_list :
    parseMathSegments (String.toList "") = [] ∧
      parseMathSegments (String.toList "") ≠ [⟨SegType.text, String.toList ""⟩] :=
  ⟨rfl, by decide⟩

/-- C8 (amended): a non-empty string containing no delimiter character
tokenizes to the single text part holding the whole string; the empty
string tokenizes to the empty list. -/
theorem tokenize_text_roundtrip (l : List Char) (h1 : l ≠ [])
    (h2 : ∀ c ∈ l, c ∉ mathDelimChars) :
    parseMathSegments l = [⟨SegType.text, l⟩] ∧ parseMathSegments [] = [] := by
  refine ⟨?_, rfl⟩
  have hb : '\\' ∉ l := fun hm => (h2 '\\' hm) (by simp [mathDelimChars])
  exact parse_of_findMatch_none (findMatch_of_no_backslash hb) h1

/-- Witness for C8 (amended) at `"hello"`. -/
theorem tokenize_text_roundtrip_witness :
    String.toList "hello" ≠ [] ∧
      (∀ c ∈ String.toList "hello", c ∉ mathDelimChars) ∧
      parseMathSegments (String.toList "hello") = [⟨SegType.text, String.toList "hello"⟩] :=
  ⟨by decide, by decide, (tokenize_text_roundtrip _ (by decide) (by decide)).1⟩

/-- C10: re-serializing the tokenizer's output in order — text parts
verbatim, inline parts wrapped in `\(...\)`, block parts wrapped in
`\[...\]` — reconstructs the original input exactly: tokenization loses
no characters on any input. -/
theorem tokenize_lossless (l : List Char) : reserialize (parseMathSegments l) = l :=
  reserialize_parseGo l.length l le_rfl

/-! # Lemmas about the doubled-brace strategy -/

/-- A successful `closeBraces` pins down the head of the list. -/
theorem closeBraces_some {l r : List Char} (h : closeBraces l = some r) :
    l = '}' :: '}' :: r := by
  unfold closeBraces at h
  split at h
  · cases h; rfl
  · cases h

/-- A successful `scanCloseBraces` decomposes its input as the capture
followed by `}}` and the remainder. -/
theorem scanCloseBraces_some :
    ∀ {l content r : List Char}, scanCloseBraces l = some (content, r) →
      l = content ++ '}' :: '}' :: r := by
  intro l
  induction l with
  | nil => intro content r h; simp [scanCloseBraces] at h
  | cons c rest ih =>
    intro content r h
    rw [scanCloseBraces] at h
    cases hC : closeBraces (c :: rest) with
    | some r2 =>
      rw [hC] at h
      cases h
      simpa using closeBraces_some hC
    | none =>
      rw [hC] at h
      by_cases hd : dotChar c = true
      · rw [if_pos hd] at h
        cases hS : scanCloseBraces rest with
        | none => rw [hS] at h; cases h
        | some pr =>
          obtain ⟨ct, r2⟩ := pr
          rw [hS] at h
          cases h
          simpa using ih hS
      · rw [if_neg hd] at h; cases h

/-- A successful `tryBracesAt` pins down the input as the full
`{{...}}` region followed by the remainder. -/
theorem tryBracesAt_some {l : List Char} {m : List Char × List Char}
    (h : tryBracesAt l = some m) :
    l = '{' :: '{' :: (m.1 ++ '}' :: '}' :: m.2) := by
  unfold tryBracesAt at h
  split at h
  · rw [scanCloseBraces_some h]
  · cases h

/-- A successful `findBracesMatch` decomposes the input as the text
before the match, the full `{{...}}` region, and the remainder. -/
theorem findBracesMatch_some :
    ∀ {l p content r : List Char}, findBracesMatch l = some (p, content, r) →
      l = p ++ '{' :: '{' :: (content ++ '}' :: '}' :: r) := by
  intro l
  induction l with
  | nil => intro p content r h; simp [findBracesMatch] at h
  | cons ch rest ih =>
    intro p content r h
    rw [findBracesMatch] at h
    cases hT : tryBracesAt (ch :: rest) with
    | some m =>
      rw [hT] at h
      cases h
      simpa using tryBracesAt_some hT
    | none =>
      rw [hT] at h
      cases hR : findBracesMatch rest with
      | none => rw [hR] at h; cases h
      | some m =>
        obtain ⟨p2, content2, r2⟩ := m
        rw [hR] at h
        cases h
        rw [List.cons_append, ← ih hR]

/-- The remainder after a successful `findBracesMatch` is strictly
shorter than the input. -/
theorem findBracesMatch_shrinks {l p content r : List Char}
    (h : findBracesMatch l = some (p, content, r)) : r.length < l.length := by
  rw [findBracesMatch_some h]
  simp [List.length_append]
  omega

/-- For any sufficient fuel, the math strings a rendered line hands to
the typesetter are exactly the captured contents, each trimmed. -/
theorem mathStrings_splitGo :
    ∀ (fuel : Nat) (l : List Char), l.length ≤ fuel →
      mathStrings (renderAlt false (splitBracesGo fuel l)) = (capturesGo fuel l).map jsTrim := by
  intro fuel
  induction fuel with
  | zero => intro l hl; simp [splitBracesGo, capturesGo, renderAlt, mathStrings]
  | succ fuel ih =>
    intro l hl
    cases hF : findBracesMatch l with
    | none => simp [splitBracesGo, capturesGo, hF, renderAlt, mathStrings]
    | some m =>
      obtain ⟨p, content, r⟩ := m
      have hs := findBracesMatch_shrinks hF
      simp only [splitBracesGo, capturesGo, hF, renderAlt, mathStrings, List.map_cons]
      rw [ih r (by omega)]

/-- The math strings of one rendered line are the line's captured
`{{...}}` contents, trimmed. -/
theorem mathStrings_renderLine (l : List Char) :
    mathStrings (renderLine l) = (braceCaptures l).map jsTrim :=
  mathStrings_splitGo l.length l le_rfl

/-- `MathText` hands each math segment's content through unchanged. -/
theorem mathText_payloads (segs : List Seg) :
    nodeMathPayloads (mathTextRender segs) = segMathContents segs := by
  induction segs with
  | nil => rfl
  | cons sg rest ih =>
    obtain ⟨t, cs⟩ := sg
    cases t <;> simp [mathTextRender, nodeMathPayloads, segMathContents, ih]

/-! # Claim theorems: math hand-off (C9) and part classification (C7) -/

/-- C9 counterexample: the doubled-brace strategy trims the delimited
content before handing it to the typesetter: on the line `{{ x }}` it
hands `"x"` while the delimited content of the source is `" x "`. -/
theorem brace_strategy_trims :
    mathStrings (renderLine ['{', '{', ' ', 'x', ' ', '}', '}']) = [['x']] ∧
      braceCaptures ['{', '{', ' ', 'x', ' ', '}', '}'] = [[' ', 'x', ' ']] ∧
      mathStrings (renderLine ['{', '{', ' ', 'x', ' ', '}', '}']) ≠
        braceCaptures ['{', '{', ' ', 'x', ' ', '}', '}'] :=
  ⟨by decide, by decide, by decide⟩

/-- C9 (amended): the escaped-parenthesis strategy hands each math
part's LaTeX string character-for-character identical to the delimited
content of the source string (each match region is literally
pre ++ delimiters ++ content ++ delimiters ++ rest, and `MathText`
passes segment contents through unchanged); the doubled-brace strategy
hands the delimited content after whitespace trimming (`seg.trim()`),
and alters it in no other way. -/
theorem math_handoff_contract :
    (∀ (l p c r : List Char), findMatch l = some (p, ⟨SegType.inline, c⟩, r) →
      l = p ++ '\\' :: '(' :: (c ++ '\\' :: ')' :: r)) ∧
      (∀ (l p c r : List Char), findMatch l = some (p, ⟨SegType.block, c⟩, r) →
        l = p ++ '\\' :: '[' :: (c ++ '\\' :: ']' :: r)) ∧
      (∀ segs : List Seg, nodeMathPayloads (mathTextRender segs) = segMathContents segs) ∧
      (∀ (l p content r : List Char), findBracesMatch l = some (p, content, r) →
        l = p ++ '{' :: '{' :: (content ++ '}' :: '}' :: r)) ∧
      (∀ l : List Char, mathStrings (renderLine l) = (braceCaptures l).map jsTrim) := by
  refine ⟨?_, ?_, mathText_payloads, fun _ _ _ _ h => findBracesMatch_some h,
    mathStrings_renderLine⟩
  · intro l p c r h
    rcases findMatch_some h with ⟨c2, hsg, hl⟩ | ⟨c2, hsg, hl⟩
    · have hc : c = c2 := by simpa [Seg.mk.injEq] using hsg
      rw [hc]
      exact hl
    · simp [Seg.mk.injEq] at hsg
  · intro l p c r h
    rcases findMatch_some h with ⟨c2, hsg, hl⟩ | ⟨c2, hsg, hl⟩
    · simp [Seg.mk.injEq] at hsg
    · have hc : c = c2 := by simpa [Seg.mk.injEq] using hsg
      rw [hc]
      exact hl

/-- C7 counterexample: `renderParts` applies the extension regex without
an end anchor to the whole untrimmed part, so a part merely containing
".png" inside — whose trimmed value does not end in a recognized
extension — is classified as an image. -/
theorem image_substring_counterexample :
    isImageClass (classifyPart (String.toList "see a.png here")) = true ∧
      specImageTest (String.toList "see a.png here") = false :=
  ⟨by decide, by decide⟩

/-- C7 (amended): a part is classified as image (rather than text)
exactly when it contains ".png", ".jpg" or ".jpeg" case-insensitively as
a substring anywhere — the regex `/\.(png|jpg|jpeg)/i` is unanchored and
tested against the whole untrimmed part, and the preceding block-math
branch compares a string with a boolean under `===` and so never
fires. -/
theorem image_classification (part : List Char) :
    isImageClass (classifyPart part) = extTest part := by
  unfold classifyPart jsStrictEqStrBool
  simp only [Bool.false_eq_true, if_false]
  cases hE : extTest part <;> simp [isImageClass, hE]

/-! # Lemmas about the playback sequencer -/

/-- Running an appended trace runs the pieces in order. -/
theorem runTrace_append (lvl : List Question) (s : PlayState) (a b : List Action) :
    runTrace lvl s (a ++ b) = runTrace lvl (runTrace lvl s a) b :=
  List.foldl_append _ _ _ _

/-- The canonical interaction with a non-final question, choosing a
non-empty (hence truthy) option, moves the clean state at index `i` to
the clean state at index `i + 1`. -/
theorem round_advance (lvl : List Question) (o : String) (i : Nat)
    (hi : i + 1 < lvl.length) (ho : o ∈ (lvl.getD i emptyQuestion).options)
    (hone : o ≠ "") :
    runTrace lvl (cleanState i) (unitTrace o) = cleanState (i + 1) := by
  have hlt : i < lvl.length - 1 := by omega
  have ho2 : o ∈ (lvl[i]?.getD emptyQuestion).options := by simpa [List.getD] using ho
  have hb : (o == "") = false := by simpa using hone
  simp [runTrace, unitTrace, step, jsTruthy, cleanState, handleCheckAnswer, handleContinue,
    ho2, hlt, hb]

/-- The canonical interaction with the final question, choosing a
non-empty option, marks the level complete without moving the index. -/
theorem round_final (lvl : List Question) (o : String) (i : Nat)
    (hi : i + 1 = lvl.length) (ho : o ∈ (lvl.getD i emptyQuestion).options)
    (hone : o ≠ "") :
    (runTrace lvl (cleanState i) (unitTrace o)).isLevelComplete = true ∧
      (runTrace lvl (cleanState i) (unitTrace o)).currentStepIndex = i := by
  have hlt : ¬ i < lvl.length - 1 := by omega
  have ho2 : o ∈ (lvl[i]?.getD emptyQuestion).options := by simpa [List.getD] using ho
  have hb : (o == "") = false := by simpa using hone
  constructor <;>
    simp [runTrace, unitTrace, step, jsTruthy, cleanState, handleCheckAnswer, handleContinue,
      ho2, hlt, hb]

/-- A session over a strict prefix of the questions walks the clean
states in order without completing. -/
theorem session_clean (lvl : List Question) :
    ∀ (opts : List String) (i : Nat),
      (∀ j, j < opts.length → opts.getD j "" ∈ (lvl.getD (i + j) emptyQuestion).options) →
      (∀ j, j < opts.length → opts.getD j "" ≠ "") →
      i + opts.length + 1 ≤ lvl.length →
      runTrace lvl (cleanState i) (sessionTrace opts) = cleanState (i + opts.length) := by
  intro opts
  induction opts with
  | nil => intro i _ _ _; simp [sessionTrace, runTrace]
  | cons o rest ih =>
    intro i hmem hval hlen
    rw [List.length_cons] at hlen
    rw [sessionTrace, runTrace_append]
    have h0 : o ∈ (lvl.getD i emptyQuestion).options := by simpa using hmem 0 (by simp)
    have h0v : o ≠ "" := by simpa using hval 0 (by simp)
    rw [round_advance lvl o i (by omega) h0 h0v]
    have hmem2 : ∀ j, j < rest.length →
        rest.getD j "" ∈ (lvl.getD (i + 1 + j) emptyQuestion).options := by
      intro j hj
      have hx := hmem (j + 1) (by simp; omega)
      rw [List.getD_cons_succ] at hx
      have heq : i + (j + 1) = i + 1 + j := by omega
      rw [heq] at hx
      exact hx
    have hval2 : ∀ j, j < rest.length → rest.getD j "" ≠ "" := by
      intro j hj
      have hx := hval (j + 1) (by simp; omega)
      rw [List.getD_cons_succ] at hx
      exact hx
    rw [ih (i + 1) hmem2 hval2 (by omega)]
    have : i + 1 + rest.length = i + (rest.length + 1) := by omega
    rw [this, List.length_cons]

/-- A full session over all remaining questions reaches the complete
state, with the index resting at the last ordinal. -/
theorem session_complete (lvl : List Question) :
    ∀ (opts : List String) (i : Nat), opts ≠ [] →
      (∀ j, j < opts.length → opts.getD j "" ∈ (lvl.getD (i + j) emptyQuestion).options) →
      (∀ j, j < opts.length → opts.getD j "" ≠ "") →
      i + opts.length = lvl.length →
      (runTrace lvl (cleanState i) (sessionTrace opts)).isLevelComplete = true ∧
        (runTrace lvl (cleanState i) (sessionTrace opts)).currentStepIndex = lvl.length - 1 := by
  intro opts
  induction opts with
  | nil => intro i hne; exact absurd rfl hne
  | cons o rest ih =>
    intro i _ hmem hval hlen
    rw [List.length_cons] at hlen
    rw [sessionTrace, runTrace_append]
    have h0 : o ∈ (lvl.getD i emptyQuestion).options := by simpa using hmem 0 (by simp)
    have h0v : o ≠ "" := by simpa using hval 0 (by simp)
    cases rest with
    | nil =>
      have hi : i + 1 = lvl.length := by simp at hlen; omega
      have hfin := round_final lvl o i hi h0 h0v
      constructor
      · simpa [sessionTrace, runTrace, List.foldl_nil] using hfin.1
      · have h2 := hfin.2
        simp only [sessionTrace, runTrace, List.foldl_nil] at h2 ⊢
        omega
    | cons o2 rest2 =>
      have hi : i + 1 < lvl.length := by simp at hlen; omega
      rw [round_advance lvl o i hi h0 h0v]
      have hmem2 : ∀ j, j < (o2 :: rest2).length →
          (o2 :: rest2).getD j "" ∈ (lvl.getD (i + 1 + j) emptyQuestion).options := by
        intro j hj
        have hx := hmem (j + 1) (by simp at hj ⊢; omega)
        rw [List.getD_cons_succ] at hx
        have heq : i + (j + 1) = i + 1 + j := by omega
        rw [heq] at hx
        exact hx
      have hval2 : ∀ j, j < (o2 :: rest2).length → (o2 :: rest2).getD j "" ≠ "" := by
        intro j hj
        have hx := hval (j + 1) (by simp at hj ⊢; omega)
        rw [List.getD_cons_succ] at hx
        exact hx
      exact ih (i + 1) (by simp) hmem2 hval2 (by simp at hlen ⊢; omega)

/-- One interaction keeps the current index within bounds. -/
theorem step_idx_lt (lvl : List Question) (s : PlayState) (a : Action)
    (h : s.currentStepIndex < lvl.length) : (step lvl s a).currentStepIndex < lvl.length := by
  cases a with
  | selectOption o =>
    simp only [step]
    split
    · exact h
    · split
      · exact h
      · split
        · exact h
        · exact h
  | mainButton =>
    simp only [step]
    split
    · exact h
    · split
      · split
        · unfold handleContinue
          split
          · next hcond => simp only []; omega
          · exact h
        · exact h
      · exact h
  | whyButton =>
    simp only [step]
    split
    · exact h
    · cases hfb : s.showFeedback with
      | none => exact h
      | some fb =>
        simp only []
        split
        · exact h
        · exact h

/-- Any interaction trace keeps the current index within bounds. -/
theorem runTrace_idx_lt (lvl : List Question) :
    ∀ (acts : List Action) (s : PlayState), s.currentStepIndex < lvl.length →
      (runTrace lvl s acts).currentStepIndex < lvl.length := by
  intro acts
  induction acts with
  | nil => intro s h; exact h
  | cons a rest ih => intro s h; exact ih (step lvl s a) (step_idx_lt lvl s a h)

/-- Pressing Continue `k` times on a review level reaches slide `k`
without completing, for `k` before the end. -/
theorem reviewIter_lt (numSlides : Nat) :
    ∀ k, k < numSlides → reviewIter numSlides k = ⟨k, false⟩ := by
  intro k
  induction k with
  | zero => intro _; rfl
  | succ k ih =>
    intro hk
    rw [reviewIter, ih (by omega)]
    simp [reviewContinue]
    omega

/-- Pressing Continue once per slide completes a review level, the index
resting at the last slide. -/
theorem reviewIter_complete (numSlides : Nat) (h : 0 < numSlides) :
    reviewIter numSlides numSlides = ⟨numSlides - 1, true⟩ := by
  obtain ⟨m, rfl⟩ : ∃ m, numSlides = m + 1 := ⟨numSlides - 1, by omega⟩
  rw [reviewIter, reviewIter_lt (m + 1) m (by omega)]
  simp [reviewContinue]

/-- One interaction preserves "while unchecked, the explanation is
hidden". -/
theorem step_hidden (lvl : List Question) (s : PlayState) (a : Action)
    (h : s.isAnswerChecked = false → s.showExplanation = false) :
    (step lvl s a).isAnswerChecked = false → (step lvl s a).showExplanation = false := by
  cases a with
  | selectOption o =>
    simp only [step]
    split
    · exact h
    · split
      · exact h
      · split
        · exact h
        · exact h
  | mainButton =>
    simp only [step]
    split
    · exact h
    · split
      · split
        · unfold handleContinue
          split
          · intro _; rfl
          · exact h
        · unfold handleCheckAnswer
          intro hc
          simp at hc
      · exact h
  | whyButton =>
    simp only [step]
    split
    · exact h
    · cases hfb : s.showFeedback with
      | none => exact h
      | some fb =>
        simp only []
        split
        · next hcond =>
          intro hc
          simp only [Bool.and_eq_true] at hcond
          exact absurd hcond.1 (by simp [hc] at hc ⊢; simp [hc])
        · exact h

/-- Along any trace from the initial state: while the current answer is
unchecked, the explanation is hidden. -/
theorem runTrace_hidden (lvl : List Question) :
    ∀ (acts : List Action) (s : PlayState),
      (s.isAnswerChecked = false → s.showExplanation = false) →
      (runTrace lvl s acts).isAnswerChecked = false →
      (runTrace lvl s acts).showExplanation = false := by
  intro acts
  induction acts with
  | nil => intro s h; exact h
  | cons a rest ih => intro s h; exact ih (step lvl s a) (step_hidden lvl s a h)

/-! # Lemmas about the completion-report effect -/

/-- Once the level is complete, the UI is unmounted and every further
interaction is a no-op. -/
theorem step_of_complete {lvl : List Question} {s : PlayState} {a : Action}
    (h : s.isLevelComplete = true) : step lvl s a = s := by
  simp [step, h]

/-- Once complete, traces change nothing. -/
theorem runTrace_of_complete (lvl : List Question) :
    ∀ (acts : List Action) (s : PlayState), s.isLevelComplete = true →
      runTrace lvl s acts = s := by
  intro acts
  induction acts with
  | nil => intro s _; rfl
  | cons a rest ih =>
    intro s h
    show runTrace lvl (step lvl s a) rest = s
    rw [step_of_complete h]
    exact ih s h

/-- The effect runner's final state is the plain trace's final state. -/
theorem runWithReports_fst (lvl : List Question) (u w : Bool) :
    ∀ (acts : List Action) (s : PlayState),
      (runWithReports lvl u w acts s).1 = runTrace lvl s acts := by
  intro acts
  induction acts with
  | nil => intro s; rfl
  | cons a rest ih =>
    intro s
    simp only [runWithReports]
    split <;> exact ih (step lvl s a)

/-- From a complete state, the effect never fires again. -/
theorem runWithReports_of_complete (lvl : List Question) (u w : Bool) :
    ∀ (acts : List Action) (s : PlayState), s.isLevelComplete = true →
      runWithReports lvl u w acts s = (s, []) := by
  intro acts
  induction acts with
  | nil => intro s _; rfl
  | cons a rest ih =>
    intro s h
    simp only [runWithReports, step_of_complete h, h, Bool.not_true, Bool.false_and,
      Bool.false_eq_true, if_false]
    rw [ih s h]

/-- With a signed-in user, the number of completion writes along a trace
from a not-yet-complete state is one exactly when the trace ends
complete, and zero otherwise. -/
theorem runWithReports_count (lvl : List Question) (w : Bool) :
    ∀ (acts : List Action) (s : PlayState), s.isLevelComplete = false →
      (runWithReports lvl true w acts s).2.length =
        if (runTrace lvl s acts).isLevelComplete = true then 1 else 0 := by
  intro acts
  induction acts with
  | nil => intro s h; simp [runWithReports, runTrace, h]
  | cons a rest ih =>
    intro s h
    cases h2 : (step lvl s a).isLevelComplete with
    | true =>
      simp only [runWithReports, h, h2, Bool.not_false, Bool.true_and, if_true]
      rw [runWithReports_of_complete lvl true w rest _ h2]
      show (w :: []).length = _
      rw [show runTrace lvl s (a :: rest) = runTrace lvl (step lvl s a) rest from rfl,
        runTrace_of_complete lvl rest _ h2, h2]
      rfl
    | false =>
      simp only [runWithReports, h, h2, Bool.not_false, Bool.and_false, Bool.false_and,
        Bool.false_eq_true, if_false]
      exact ih (step lvl s a) h2

/-- Taking a longer prefix does not change the elements read by `getD`. -/
theorem getD_take {α : Type} (l : List α) :
    ∀ (k j : Nat) (d : α), j < k → (l.take k).getD j d = l.getD j d := by
  induction l with
  | nil => intro k j d _; simp
  | cons a rest ih =>
    intro k j d h
    cases k with
    | zero => omega
    | succ k2 =>
      cases j with
      | zero => simp
      | succ j2 => simpa using ih k2 j2 d (by omega)

/-! # Claim theorems: sequencer, submit, completion report, normalize -/

/-- C2: for a level with `n = lvl.length ≥ 1` questions, the canonical
session (submit then advance on each question) reaches the complete
state after exactly `n` advances, visiting the ordinals `0, …, n-1` in
strictly increasing order with no repeats or skips (after `k < n` rounds
the state is exactly the clean state at index `k`); every advance that
moves to the next unit resets selection, checked and explanation; the
current index stays within bounds under every interaction trace; and the
review-level sequencer visits its slides the same way.  The chosen
answers must be non-empty strings, since the page's Check/Continue
trigger is `selectedAnswer ? ... : undefined` and the empty string is
falsy in JS. -/
theorem sequencer_monotone (lvl : List Question) (opts : List String) (k : Nat)
    (acts : List Action) (s : PlayState)
    (hn : 0 < lvl.length) (hlen : opts.length = lvl.length)
    (hopts : ∀ j, j < opts.length → opts.getD j "" ∈ (lvl.getD j emptyQuestion).options)
    (hvals : ∀ j, j < opts.length → opts.getD j "" ≠ "")
    (hk : k < lvl.length) :
    (runTrace lvl initState (sessionTrace opts)).isLevelComplete = true ∧
      (runTrace lvl initState (sessionTrace opts)).currentStepIndex = lvl.length - 1 ∧
      runTrace lvl initState (sessionTrace (opts.take k)) = cleanState k ∧
      (s.currentStepIndex + 1 < lvl.length →
        (handleContinue lvl.length s).currentStepIndex = s.currentStepIndex + 1 ∧
          (handleContinue lvl.length s).selectedAnswer = none ∧
          (handleContinue lvl.length s).isAnswerChecked = false ∧
          (handleContinue lvl.length s).showExplanation = false) ∧
      (s.currentStepIndex < lvl.length →
        (runTrace lvl s acts).currentStepIndex < lvl.length) ∧
      (∀ m, m < lvl.length → reviewIter lvl.length m = ⟨m, false⟩) ∧
      reviewIter lvl.length lvl.length = ⟨lvl.length - 1, true⟩ := by
  have hne : opts ≠ [] := by
    intro he
    rw [he] at hlen
    simp at hlen
    omega
  have hmem0 : ∀ j, j < opts.length →
      opts.getD j "" ∈ (lvl.getD (0 + j) emptyQuestion).options := by
    intro j hj
    simpa [Nat.zero_add] using hopts j hj
  have hsess := session_complete lvl opts 0 hne hmem0 hvals (by omega)
  have htlen : (opts.take k).length = k := by
    rw [List.length_take]
    omega
  have hmemt : ∀ j, j < (opts.take k).length →
      (opts.take k).getD j "" ∈ (lvl.getD (0 + j) emptyQuestion).options := by
    intro j hj
    rw [htlen] at hj
    rw [getD_take opts k j "" hj]
    simpa [Nat.zero_add] using hopts j (by omega)
  have hvalt : ∀ j, j < (opts.take k).length → (opts.take k).getD j "" ≠ "" := by
    intro j hj
    rw [htlen] at hj
    rw [getD_take opts k j "" hj]
    exact hvals j (by omega)
  have hclean := session_clean lvl (opts.take k) 0 hmemt hvalt (by omega)
  refine ⟨hsess.1, hsess.2, ?_, ?_, fun h => runTrace_idx_lt lvl acts s h,
    reviewIter_lt lvl.length, reviewIter_complete lvl.length hn⟩
  · rw [show (initState : PlayState) = cleanState 0 from rfl, hclean, htlen, Nat.zero_add]
  · intro hlt
    unfold handleContinue
    rw [if_pos (by omega : s.currentStepIndex < lvl.length - 1)]
    exact ⟨rfl, rfl, rfl, rfl⟩

/-- Witness for C2 on the two-question demonstration level with answers
"2" then "A". -/
theorem sequencer_monotone_witness :
    (runTrace demoQuestions initState (sessionTrace ["2", "A"])).isLevelComplete = true :=
  (sequencer_monotone demoQuestions ["2", "A"] 1 [] initState (by decide) (by decide)
    (by decide) (by decide) (by decide)).1

/-- C3: from any reachable viewing state (selection made, answer not yet
checked — in which the explanation is necessarily hidden, as the last
conjunct proves for every trace from the initial state), `submit`
computes `isCorrect` as the exact equality of the selection with the
unit's `correctAnswer` and sets the explanation's visibility to the
negation of `isCorrect`. -/
theorem submit_correctness (lvl : List Question) (q : Question) (opt : String)
    (s : PlayState) (acts : List Action)
    (hsel : s.selectedAnswer = some opt)
    (_hunchecked : s.isAnswerChecked = false)
    (hexp : s.showExplanation = false) :
    (handleCheckAnswer q s).isAnswerChecked = true ∧
      (handleCheckAnswer q s).showFeedback.map Feedback.isCorrect =
        some (opt == q.correctAnswer) ∧
      (handleCheckAnswer q s).showExplanation = !(opt == q.correctAnswer) ∧
      ((runTrace lvl initState acts).isAnswerChecked = false →
        (runTrace lvl initState acts).showExplanation = false) := by
  refine ⟨rfl, ?_, ?_, runTrace_hidden lvl acts initState (fun _ => rfl)⟩
  · simp only [handleCheckAnswer, hsel]
    rfl
  · simp only [handleCheckAnswer, hsel]
    have hbeq : (some opt == some q.correctAnswer) = (opt == q.correctAnswer) := rfl
    simp only [hbeq]
    cases hb : (opt == q.correctAnswer) <;> simp [hb, hexp]

/-- Witness for C3: submitting the wrong option "3" on the demonstration
level's first question opens the explanation. -/
theorem submit_correctness_witness :
    (handleCheckAnswer (demoQuestions.getD 0 emptyQuestion)
        { initState with selectedAnswer := some "3" }).showExplanation =
      !("3" == (demoQuestions.getD 0 emptyQuestion).correctAnswer) :=
  (submit_correctness demoQuestions (demoQuestions.getD 0 emptyQuestion) "3"
    { initState with selectedAnswer := some "3" } [] rfl rfl rfl).2.2.1

/-- C6: with a signed-in user, across any interaction trace from the
initial state the completion write fires exactly once when the trace
ends complete and never otherwise; the write's success or failure does
not change the resulting state, and the completion screen is shown
exactly when the state is complete. -/
theorem completion_report_once (lvl : List Question) (acts : List Action)
    (hasUser writeOk writeOk2 : Bool) (huser : hasUser = true) :
    (runWithReports lvl hasUser writeOk acts initState).2.length =
        (if (runTrace lvl initState acts).isLevelComplete = true then 1 else 0) ∧
      (runWithReports lvl hasUser writeOk acts initState).1 = runTrace lvl initState acts ∧
      (runWithReports lvl hasUser writeOk acts initState).1 =
        (runWithReports lvl hasUser writeOk2 acts initState).1 ∧
      (renderScreen (runWithReports lvl hasUser writeOk acts initState).1 =
          Screen.levelComplete ↔
        (runTrace lvl initState acts).isLevelComplete = true) := by
  subst huser
  refine ⟨runWithReports_count lvl writeOk acts initState rfl,
    runWithReports_fst lvl true writeOk acts initState, ?_, ?_⟩
  · rw [runWithReports_fst, runWithReports_fst]
  · rw [runWithReports_fst]
    unfold renderScreen
    cases hc : (runTrace lvl initState acts).isLevelComplete <;> simp [hc]

/-- Witness for C6: completing the demonstration level writes exactly
one completion record. -/
theorem completion_report_once_witness :
    (runWithReports demoQuestions true true (sessionTrace ["2", "A"]) initState).2.length =
      (if (runTrace demoQuestions initState (sessionTrace ["2", "A"])).isLevelComplete = true
        then 1 else 0) :=
  (completion_report_once demoQuestions (sessionTrace ["2", "A"]) true true false rfl).1

/-- C5: normalization fails fast with `MalformedUnit` whenever
`correctAnswer` does not case-sensitively match one of `options` (never
silently defaulting it to some option), and every successfully
normalized unit carries its options verbatim in order together with its
original, option-matching `correctAnswer`. -/
theorem normalize_rejects_bad_answer (raw : RawQuestionUnit)
    (h : raw.correctAnswer ∉ raw.options) :
    normalizeQuestion raw = Except.error ErrorKind.MalformedUnit ∧
      (∀ u : NormUnit, normalizeQuestion raw ≠ Except.ok u) ∧
      (∀ (raw2 : RawQuestionUnit) (u : NormUnit), normalizeQuestion raw2 = Except.ok u →
        u.options = raw2.options ∧ u.correctAnswer = raw2.correctAnswer ∧
          u.correctAnswer ∈ u.options) := by
  refine ⟨by simp [normalizeQuestion, h], by simp [normalizeQuestion, h], ?_⟩
  intro raw2 u hok
  unfold normalizeQuestion at hok
  dsimp only at hok
  split at hok
  · next hmem =>
    split at hok
    · cases hok
    · cases hok
      exact ⟨rfl, rfl, hmem⟩
  · cases hok

/-- Witness for C5 at the spec's malformed unit (options A/B, correct
answer C). -/
theorem normalize_rejects_bad_answer_witness :
    normalizeQuestion demoBadUnit = Except.error ErrorKind.MalformedUnit :=
  (normalize_rejects_bad_answer demoBadUnit (by decide)).1

end Walma
